import Mathlib

/-!
Shallow embedding of the `getimages` stylesheet-recoloring script of this
repository.  The repository ships two near-duplicate revisions of the script;
they collapse to one implementation, and the later revision — the one with
comment stripping and deduplication in the URL extractor, the white→transparent
rule in the recolor transform, the empty-stylesheet validation, the per-variant
error handling, and the (0,128,0) default for green — is the implementation
embedded and verified here.

Strings are modelled as `List Char`; the JS regular expressions used by the
script are embedded as explicit character-list scanners with the exact
greedy-with-backtracking semantics of the patterns involved.
-/

namespace GetImages

/-- JS `\s` (restricted to the ASCII whitespace characters): space, tab,
newline, carriage return, vertical tab, form feed. -/
def isWs (c : Char) : Bool :=
  c = ' ' || c = '\t' || c = '\n' || c = '\r' || c = '\x0b' || c = '\x0c'

/-- A quote character, i.e. the class `['"]` of the URL regex. -/
def isQuote (c : Char) : Bool :=
  c = '\'' || c = '"'

/-- A character excluded by the class `[^'")]` of the URL regex. -/
def isExcl (c : Char) : Bool :=
  c = '\'' || c = '"' || c = ')'

/-- Case-insensitive character comparison (the regexes carry the `i` flag). -/
def ciEq (a b : Char) : Bool :=
  a.toLower = b.toLower

/-! ### Comment removal: `css.replace(/\/\*[\s\S]*?\*\//g, '')`

The lazy body `[\s\S]*?` runs to the nearest `*/`; a `/*` with no later `*/`
is not a match and stays in place (and then nothing later can match either,
since any later `*/` would have closed it). -/

/-- Does the character list contain the two-character sequence `*/`? -/
def hasClose : List Char → Bool
  | [] => false
  | c :: rest =>
    match rest with
    | d :: _ => (c = '*' && d = '/') || hasClose rest
    | [] => false

/-- Drop everything up to and including the first `*/` (the whole list if
there is none). -/
def dropComment : List Char → List Char
  | [] => []
  | c :: rest =>
    match rest with
    | d :: r => if c = '*' && d = '/' then r else dropComment rest
    | [] => []

theorem dropComment_length_le (l : List Char) : (dropComment l).length ≤ l.length := by
  induction l with
  | nil => simp [dropComment]
  | cons c rest ih =>
    cases rest with
    | nil => simp [dropComment]
    | cons d r =>
      by_cases h : (c = '*' && d = '/') = true
      · simp [dropComment, h]
        omega
      · simp only [dropComment, h, if_false, Bool.false_eq_true]
        calc (dropComment (d :: r)).length ≤ (d :: r).length := ih
          _ ≤ (c :: d :: r).length := by simp

/-- One fuelled pass of the comment-removal replace; fuel is consumed one unit
per scanning step, and each step consumes at least one input character, so
`fuel = input length` suffices (`rcAux_congr`). -/
def rcAux : Nat → List Char → List Char
  | 0, s => s
  | _ + 1, [] => []
  | f + 1, c :: rest =>
    match rest with
    | d :: r =>
      if c = '/' && d = '*' then
        if hasClose r then rcAux f (dropComment r) else c :: d :: rcAux f r
      else c :: rcAux f rest
    | [] => [c]

theorem rcAux_congr (f₁ : Nat) : ∀ (f₂ : Nat) (s : List Char),
    s.length ≤ f₁ → s.length ≤ f₂ → rcAux f₁ s = rcAux f₂ s := by
  induction f₁ with
  | zero =>
    intro f₂ s h₁ _
    have : s = [] := List.length_eq_zero.mp (Nat.le_zero.mp h₁)
    subst this
    cases f₂ <;> simp [rcAux]
  | succ k ih =>
    intro f₂ s h₁ h₂
    cases s with
    | nil => cases f₂ <;> simp [rcAux]
    | cons c rest =>
      cases f₂ with
      | zero => simp at h₂
      | succ m =>
        cases rest with
        | nil => simp [rcAux]
        | cons d r =>
          simp only [rcAux]
          simp only [List.length_cons] at h₁ h₂
          by_cases hcd : (c = '/' && d = '*') = true
          · simp only [hcd, if_true]
            by_cases hcl : hasClose r = true
            · simp only [hcl, if_true]
              exact ih m (dropComment r)
                (le_trans (dropComment_length_le r) (by omega))
                (le_trans (dropComment_length_le r) (by omega))
            · simp only [hcl, Bool.false_eq_true, if_false]
              rw [ih m r (by omega) (by omega)]
          · simp only [hcd, Bool.false_eq_true, if_false]
            rw [ih m (d :: r) (by simp; omega) (by simp; omega)]

/-- `css.replace(/\/\*[\s\S]*?\*\//g, '')`. -/
def removeComments (css : List Char) : List Char := rcAux css.length css

/-- `.replace(/\s+/g, ' ')`: collapse every maximal whitespace run to a single
space. -/
def collapseWs : List Char → List Char
  | [] => []
  | c :: rest =>
    if isWs c then
      match rest with
      | d :: _ => if isWs d then collapseWs rest else ' ' :: collapseWs rest
      | [] => [' ']
    else c :: collapseWs rest

/-! ### The URL regex `/url\(['"]?([^'")]+\.png)['"]?\s*\)/gi`

`matchAt` attempts a match anchored at the head of the list; the capture group
`[^'")]+\.png` lies inside the maximal run of non-`'`/`"`/`)` characters
following the optional opening quote, the engine tries the longest capture
first (greedy `+`), and after the capture the tail `['"]?\s*\)` must match. -/

theorem length_dropWhile_le' (p : Char → Bool) (l : List Char) :
    (l.dropWhile p).length ≤ l.length := by
  induction l with
  | nil => simp
  | cons c r ih =>
    by_cases h : p c = true
    · simp only [List.dropWhile_cons, h, if_true]
      exact le_trans ih (Nat.le_succ _)
    · simp [List.dropWhile_cons, h]

theorem length_takeWhile_add_dropWhile (p : Char → Bool) (l : List Char) :
    (l.takeWhile p).length + (l.dropWhile p).length = l.length := by
  induction l with
  | nil => simp
  | cons c r ih =>
    by_cases h : p c = true
    · simp only [List.takeWhile_cons, List.dropWhile_cons, h, if_true,
        List.length_cons]
      omega
    · simp [List.takeWhile_cons, List.dropWhile_cons, h]

/-- Do the last four characters spell `.png`, case-insensitively? -/
def endsWithPng (l : List Char) : Bool :=
  match l.reverse with
  | g :: n :: p :: d :: _ => ciEq g 'g' && ciEq n 'n' && ciEq p 'p' && d = '.'
  | _ => false

/-- Match the tail `['"]?\s*\)` of the regex; returns the remainder after the
closing parenthesis. -/
def tailMatch (l : List Char) : Option (List Char) :=
  let l1 := match l with
            | c :: r => if isQuote c then r else l
            | [] => l
  match l1.dropWhile isWs with
  | c :: r => if c = ')' then some r else none
  | [] => none

/-- Try capture lengths `n, n-1, …, 1` (greedy `+`, longest first): capture
`run.take e` is viable when it has at least five characters (one for the `+`
plus the four of `.png`), ends in `.png`, and the regex tail matches what
follows it. Returns the capture and the remainder after the whole match. -/
def findCapAux (run rest0 : List Char) : Nat → Option (List Char × List Char)
  | 0 => none
  | e + 1 =>
    let cap := run.take (e + 1)
    if 5 ≤ e + 1 && endsWithPng cap then
      match tailMatch (run.drop (e + 1) ++ rest0) with
      | some r => some (cap, r)
      | none => findCapAux run rest0 e
    else findCapAux run rest0 e

/-- Attempt the whole regex anchored at the head of the list: literal `url(`
(case-insensitive), optional opening quote, capture, tail. -/
def matchAt : List Char → Option (List Char × List Char)
  | c1 :: c2 :: c3 :: c4 :: rest =>
    if ciEq c1 'u' && ciEq c2 'r' && ciEq c3 'l' && c4 = '(' then
      let body := match rest with
                  | c :: r2 => if isQuote c then r2 else rest
                  | [] => rest
      let run := body.takeWhile (fun c => !isExcl c)
      let rest0 := body.dropWhile (fun c => !isExcl c)
      findCapAux run rest0 run.length
    else none
  | _ => none

theorem tailMatch_length {l r : List Char} (h : tailMatch l = some r) :
    r.length < l.length := by
  unfold tailMatch at h
  cases l with
  | nil => simp at h
  | cons c rest =>
    simp only at h
    by_cases hq : isQuote c = true
    · simp only [hq, if_true] at h
      cases h' : rest.dropWhile isWs with
      | nil => rw [h'] at h; simp at h
      | cons e r' =>
        rw [h'] at h
        by_cases he : e = ')'
        · simp [he] at h
          subst h
          have h1 : (e :: r').length ≤ rest.length := by
            rw [← h']; exact length_dropWhile_le' _ _
          simp at h1 ⊢
          omega
        · simp [he] at h
    · simp only [hq, Bool.false_eq_true, if_false] at h
      cases h' : (c :: rest).dropWhile isWs with
      | nil => rw [h'] at h; simp at h
      | cons e r' =>
        rw [h'] at h
        by_cases he : e = ')'
        · simp [he] at h
          subst h
          have h1 : (e :: r').length ≤ (c :: rest).length := by
            rw [← h']; exact length_dropWhile_le' _ _
          simp at h1 ⊢
          omega
        · simp [he] at h

theorem findCapAux_length {run rest0 : List Char} (n : Nat) {cap after : List Char}
    (h : findCapAux run rest0 n = some (cap, after)) :
    after.length < run.length + rest0.length := by
  induction n with
  | zero => simp [findCapAux] at h
  | succ e ih =>
    unfold findCapAux at h
    by_cases hc : (5 ≤ e + 1 && endsWithPng (run.take (e + 1))) = true
    · simp only [hc, if_true] at h
      cases htm : tailMatch (run.drop (e + 1) ++ rest0) with
      | none => rw [htm] at h; exact ih h
      | some r =>
        rw [htm] at h
        simp at h
        obtain ⟨_, h2⟩ := h
        subst h2
        have := tailMatch_length htm
        have hd : (run.drop (e + 1)).length ≤ run.length := by
          simp
        simp at this
        omega
    · simp only [hc, Bool.false_eq_true, if_false] at h
      exact ih h

theorem matchAt_length {s cap after : List Char} (h : matchAt s = some (cap, after)) :
    after.length < s.length := by
  match s with
  | [] => simp [matchAt] at h
  | [c1] => simp [matchAt] at h
  | [c1, c2] => simp [matchAt] at h
  | [c1, c2, c3] => simp [matchAt] at h
  | c1 :: c2 :: c3 :: c4 :: rest =>
    unfold matchAt at h
    by_cases hc : (ciEq c1 'u' && ciEq c2 'r' && ciEq c3 'l' && c4 = '(') = true
    · simp only [hc, if_true] at h
      set body := (match rest with
                   | c :: r2 => if isQuote c then r2 else rest
                   | [] => rest) with hbody
      have hblen : body.length ≤ rest.length := by
        rw [hbody]
        cases rest with
        | nil => simp
        | cons c r2 =>
          by_cases hq : isQuote c = true
          · simp [hq]
          · simp [hq]
      have := findCapAux_length _ h
      have hsplit : (body.takeWhile (fun c => !isExcl c)).length +
          (body.dropWhile (fun c => !isExcl c)).length = body.length :=
        length_takeWhile_add_dropWhile _ _
      simp only [List.length_cons]
      omega
    · simp only [hc, Bool.false_eq_true, if_false] at h
      exact Option.noConfusion h

/-- Fuelled `re.exec` loop: find the leftmost match, emit its capture, continue
after the match (`lastIndex` semantics); otherwise advance one character. Each
step consumes fuel 1 and at least one input character (`matchAt_length`), so
`fuel = input length` suffices (`scanAux_congr`). -/
def scanAux : Nat → List Char → List (List Char)
  | _, [] => []
  | 0, _ :: _ => []
  | f + 1, c :: rest =>
    match matchAt (c :: rest) with
    | some (cap, after) => cap :: scanAux f after
    | none => scanAux f rest

theorem scanAux_congr (f₁ : Nat) : ∀ (f₂ : Nat) (s : List Char),
    s.length ≤ f₁ → s.length ≤ f₂ → scanAux f₁ s = scanAux f₂ s := by
  induction f₁ with
  | zero =>
    intro f₂ s h₁ _
    have : s = [] := List.length_eq_zero.mp (Nat.le_zero.mp h₁)
    subst this
    cases f₂ <;> simp [scanAux]
  | succ k ih =>
    intro f₂ s h₁ h₂
    cases s with
    | nil => cases f₂ <;> simp [scanAux]
    | cons c rest =>
      cases f₂ with
      | zero => simp at h₂
      | succ m =>
        simp only [scanAux]
        cases hm : matchAt (c :: rest) with
        | some p =>
          obtain ⟨cap, after⟩ := p
          have hlen := matchAt_length hm
          simp only [List.length_cons] at h₁ h₂ hlen
          show cap :: scanAux k after = cap :: scanAux m after
          rw [ih m after (by omega) (by omega)]
        | none =>
          simp only [List.length_cons] at h₁ h₂
          show scanAux k rest = scanAux m rest
          exact ih m rest (by omega) (by omega)

/-- All captures of the global regex scan over the (already cleaned) text. -/
def scanUrls (s : List Char) : List (List Char) := scanAux s.length s

/-- JS `str.split(sep)[0]`: everything before the first occurrence of `sep`
(the whole string when `sep` does not occur). -/
def splitBefore (sep : Char) (l : List Char) : List Char :=
  l.takeWhile (fun c => c ≠ sep)

/-- The `^['"]` alternative of the quote-stripping replace: remove one
leading quote character. -/
def stripHeadQuote (l : List Char) : List Char :=
  match l with
  | c :: r => if isQuote c then r else l
  | [] => l

/-- `str.replace(/^['"]|['"]$/g, '')`: remove one leading and one trailing
quote character. -/
def stripQuotes (l : List Char) : List Char :=
  match (stripHeadQuote l).reverse with
  | c :: r => if isQuote c then r.reverse else stripHeadQuote l
  | [] => stripHeadQuote l

/-- The per-match cleanup `match[1].split('?')[0].split('#')[0]
.replace(/^['"]|['"]$/g, '')`. -/
def cleanMatch (m : List Char) : List Char :=
  stripQuotes (splitBefore '#' (splitBefore '?' m))

/-- The comment-stripped, whitespace-collapsed stylesheet text. -/
def cleanCss (css : List Char) : List Char := collapseWs (removeComments css)

/-- The cleaned-up captures in match order, before deduplication. -/
def cleanedMatches (css : List Char) : List (List Char) :=
  (scanUrls (cleanCss css)).map cleanMatch

/-- `findPngUrls(css)`: clean the stylesheet, scan for URL matches, clean each
capture, and push it unless already collected. -/
def findPngUrls (css : List Char) : List (List Char) :=
  (scanUrls (cleanCss css)).foldl
    (fun urls m =>
      let cleanUrl := cleanMatch m
      if cleanUrl ∈ urls then urls else urls ++ [cleanUrl]) []

/-! ### Palette resolver: `parseColors(colorArgs)` -/

/-- JS `str.split(sep)` for a single-character separator: the list of
`sep`-free segments (`"".split(':') = [""]`, `":".split(':') = ["", ""]`). -/
def splitCh (sep : Char) : List Char → List (List Char)
  | [] => [[]]
  | c :: rest =>
    let r := splitCh sep rest
    if c = sep then [] :: r
    else
      match r with
      | h :: t => (c :: h) :: t
      | [] => [[c]]

/-- The character class `[0-9a-fA-F]`. -/
def isHexDigitCh (c : Char) : Bool :=
  ('0' ≤ c && c ≤ '9') || ('a' ≤ c && c ≤ 'f') || ('A' ≤ c && c ≤ 'F')

/-- The validation regex `/^#?[0-9a-fA-F]{6}$/`. -/
def validHex (hex : List Char) : Bool :=
  match hex with
  | '#' :: r => r.length = 6 && r.all isHexDigitCh
  | _ => hex.length = 6 && hex.all isHexDigitCh

/-- `parseInt` value of one hexadecimal digit character. -/
def hexVal (c : Char) : Nat :=
  if '0' ≤ c ∧ c ≤ '9' then c.toNat - '0'.toNat
  else if 'a' ≤ c ∧ c ≤ 'f' then c.toNat - 'a'.toNat + 10
  else if 'A' ≤ c ∧ c ≤ 'F' then c.toNat - 'A'.toNat + 10
  else 0

/-- `parseInt(h.slice(i, i+2), 16)`: one big-endian byte pair. -/
def hexByte (c d : Char) : Nat := 16 * hexVal c + hexVal d

/-- `hex.replace(/^#/, '')` followed by the three `parseInt(h.slice(…), 16)`
calls producing the `[R, G, B]` triple. -/
def rgbOfHex (hex : List Char) : Nat × Nat × Nat :=
  let h := match hex with
           | '#' :: r => r
           | _ => hex
  (hexByte (h.getD 0 '0') (h.getD 1 '0'),
   hexByte (h.getD 2 '0') (h.getD 3 '0'),
   hexByte (h.getD 4 '0') (h.getD 5 '0'))

/-- The fixed `defaults` object of `parseColors`. -/
def defaultPalette : List (List Char × (Nat × Nat × Nat)) :=
  [("green".toList, (0, 128, 0)),
   ("yellow".toList, (255, 255, 0)),
   ("red".toList, (255, 0, 0)),
   ("blue".toList, (0, 0, 255))]

/-- JS object property assignment `colors[name] = v` on a string-keyed object
(modelled as an association list): an existing key is updated in place keeping
its position, a new key is appended. -/
def setKey (m : List (List Char × (Nat × Nat × Nat))) (k : List Char)
    (v : Nat × Nat × Nat) : List (List Char × (Nat × Nat × Nat)) :=
  if m.any (fun p => p.1 = k) then
    m.map (fun p => if p.1 = k then (k, v) else p)
  else m ++ [(k, v)]

/-- The `for (let entry of colorArgs)` loop of `parseColors`: destructure
`const [name, hex] = entry.split(':')` (so `name` is segment 0 and `hex` is
segment 1 — any further segments are dropped), validate
`!name || !/^#?[0-9a-fA-F]{6}$/.test(hex)` (an absent `hex` fails the test),
exiting the process on the first invalid entry (modelled as `Except.error`
carrying the offending entry), otherwise store the parsed triple. -/
def parseLoop : List (List Char) → List (List Char × (Nat × Nat × Nat)) →
    Except (List Char) (List (List Char × (Nat × Nat × Nat)))
  | [], colors => .ok colors
  | entry :: rest, colors =>
    let segs := splitCh ':' entry
    let name := segs.headD []
    let hexOk := match segs[1]? with
                 | some hex => validHex hex
                 | none => false
    if name.isEmpty || !hexOk then .error entry
    else parseLoop rest (setKey colors name (rgbOfHex (segs.getD 1 [])))

/-- `parseColors(colorArgs)`: the default palette when no color arguments are
given, otherwise the validated user palette (a fatal `process.exit(1)` on the
first malformed entry is modelled as `Except.error`). -/
def parseColors (colorArgs : List (List Char)) :
    Except (List Char) (List (List Char × (Nat × Nat × Nat))) :=
  if colorArgs.isEmpty then .ok defaultPalette
  else parseLoop colorArgs []

/-! ### The recolor transform: `processAndSave`'s `clone.scan(…)`

A Jimp bitmap is a width, a height and a flat RGBA byte buffer with four
bytes per pixel; `scan(0, 0, w, h, f)` visits the pixels in row-major order,
calling the mutating callback with `idx = 4 * (w * y + x)`, i.e. with
`idx = 4 * k` for `k = 0, 1, …, w * h - 1`. -/

structure Bitmap where
  width : Nat
  height : Nat
  data : List Nat
deriving DecidableEq, Repr

/-- `this.bitmap.data[i]` (reads past the end are irrelevant under the Jimp
well-formedness invariant `data.length = 4 * width * height`). -/
def getByte (d : List Nat) (i : Nat) : Nat := d.getD i 0

/-- `this.bitmap.data[i] = v`. -/
def setByte (d : List Nat) (i : Nat) (v : Nat) : List Nat := d.set i v

/-- The body of the `scan` callback of `processAndSave` at buffer offset
`idx`: read `r`, `g`, `b`, `a`; rule 1 (opaque pure white → transparent,
with an early `return` so rule 2 is skipped); rule 2 (opaque pure black →
the target color); otherwise leave the buffer untouched. -/
def recolorAt (rgb : Nat × Nat × Nat) (d : List Nat) (idx : Nat) : List Nat :=
  let r := getByte d idx
  let g := getByte d (idx + 1)
  let b := getByte d (idx + 2)
  let a := getByte d (idx + 3)
  if a ≠ 0 ∧ r = 255 ∧ g = 255 ∧ b = 255 then
    setByte d (idx + 3) 0
  else if a ≠ 0 ∧ r = 0 ∧ g = 0 ∧ b = 0 then
    setByte (setByte (setByte d idx rgb.1) (idx + 1) rgb.2.1) (idx + 2) rgb.2.2
  else d

/-- `clone.scan(0, 0, clone.bitmap.width, clone.bitmap.height, callback)`:
apply the callback at `idx = 4 * k` for each pixel `k` in row-major order. -/
def scanBitmap (rgb : Nat × Nat × Nat) (img : Bitmap) : Bitmap :=
  { img with
    data := (List.range (img.width * img.height)).foldl
      (fun d k => recolorAt rgb d (4 * k)) img.data }

/-- The recolor transform of `processAndSave`: clone the image, scan the
clone. -/
def processClone (rgb : Nat × Nat × Nat) (img : Bitmap) : Bitmap :=
  scanBitmap rgb img

/-- `processAndSave(img, rgb, outPath)` as it affects bitmaps: the first
component is `img` as the caller sees it after the call (the scan mutates
`img.clone()`, an independent copy, never `img` itself), the second is the
bitmap that is encoded and written to `outPath`. -/
def processAndSave (rgb : Nat × Nat × Nat) (img : Bitmap) : Bitmap × Bitmap :=
  let clone := img
  (img, processClone rgb clone)

/-! ### The pipeline orchestrator (the `async` main IIFE)

Effects are modelled by an event trace and an oracle supplying the outcomes
of the external world: the stylesheet retrieval (`none` models a thrown
fetch/read error), each image retrieval (`none` models a failed download or
decode), and each file write (`false` models a thrown write error, which the
per-variant `try/catch` swallows).  `minimatch`-based filtering and WHATWG
`new URL(rel, base)` resolution are pure functions of their string arguments
and are abstracted as configuration parameters; `path.join` is modelled as
`/`-interleaving (its extra normalization is irrelevant to the inputs used
here); directory creation is not modelled. -/

/-- One observable effect of a run. -/
inductive Ev
  | fetchCss (src : List Char)
  | fetchImg (url : List Char)
  | write (path : List Char) (bmp : Bitmap) (ok : Bool)
deriving DecidableEq, Repr

structure Config where
  cssSource : List Char
  baseUrl : Option (List Char)
  output : List Char
  colorArgs : List (List Char)
  /-- `p => opts.filter.some(pat => minimatch(p, pat))`. -/
  excluded : List Char → Bool
  /-- `(rel, base) => new URL(rel, base).toString()`. -/
  resolveUrl : List Char → List Char → List Char

structure Oracle where
  /-- Result of retrieving the stylesheet source (`none` = thrown error). -/
  cssResult : Option (List Char)
  /-- Result of `fetchImage(url)` (`none` = download/decode failure). -/
  imgResult : List Char → Option Bitmap
  /-- Whether writing to the given output path succeeds. -/
  writeOk : List Char → Bool

/-- The result of one run: the effect trace and the process exit code. -/
structure RunResult where
  events : List Ev
  exitCode : Nat
deriving Repr

/-- `/^https?:\/\//.test(s)`. -/
def hasHttpScheme (s : List Char) : Bool :=
  "http://".toList.isPrefixOf s || "https://".toList.isPrefixOf s

/-- `rel.replace(/^\/+/, '')`. -/
def dropLeadingSlashes (s : List Char) : List Char :=
  s.dropWhile (fun c => c = '/')

/-- `path.join(opts.output, name, cleanRel)`. -/
def joinPath (out name rel : List Char) : List Char :=
  out ++ '/' :: name ++ '/' :: rel

/-- URL resolution for one reference: absolute `http(s)` references are used
as-is, relative ones are resolved against the base URL when configured, and
`none` models the `continue` taken when no base URL is available. -/
def refUrl (cfg : Config) (rel : List Char) : Option (List Char) :=
  if hasHttpScheme rel then some rel
  else
    match cfg.baseUrl with
    | some b => some (cfg.resolveUrl rel b)
    | none => none

/-- The inner `for (let [name, rgb] of Object.entries(colors))` loop for one
fetched image: one write attempt per palette entry, each variant computed
from its own clone of the fetched bitmap, write errors swallowed. -/
def variantEvents (cfg : Config) (o : Oracle) (rel : List Char) (img : Bitmap)
    (colors : List (List Char × (Nat × Nat × Nat))) : List Ev :=
  colors.map (fun nc =>
    let outFile := joinPath cfg.output nc.1 (dropLeadingSlashes rel)
    Ev.write outFile (processAndSave nc.2 img).2 (o.writeOk outFile))

/-- One iteration of the `for (let rel of paths)` loop: resolve the URL (or
skip), fetch (a failure skips just this reference), then the per-variant
loop. -/
def refEvents (cfg : Config) (o : Oracle)
    (colors : List (List Char × (Nat × Nat × Nat))) (rel : List Char) : List Ev :=
  match refUrl cfg rel with
  | none => []
  | some url =>
    Ev.fetchImg url ::
      match o.imgResult url with
      | none => []
      | some img => variantEvents cfg o rel img colors

/-- The references that survive extraction and filtering. -/
def survivingPaths (cfg : Config) (content : List Char) : List (List Char) :=
  (findPngUrls content).filter (fun p => !cfg.excluded p)

/-- The whole run: fetch the stylesheet (a thrown error or empty/whitespace
content is fatal), extract and filter references (zero references ends the
run successfully before color validation), validate colors (a malformed
entry is a fatal `process.exit(1)`), then process each reference; the
top-level `catch` turns fatal errors into exit code 1 and a normal
completion exits 0. -/
def runMain (cfg : Config) (o : Oracle) : RunResult :=
  match o.cssResult with
  | none => ⟨[Ev.fetchCss cfg.cssSource], 1⟩
  | some content =>
    if content.all isWs then ⟨[Ev.fetchCss cfg.cssSource], 1⟩
    else
      let paths := survivingPaths cfg content
      if paths.isEmpty then ⟨[Ev.fetchCss cfg.cssSource], 0⟩
      else
        match parseColors cfg.colorArgs with
        | .error _ => ⟨[Ev.fetchCss cfg.cssSource], 1⟩
        | .ok colors =>
          ⟨Ev.fetchCss cfg.cssSource :: (paths.map (refEvents cfg o colors)).flatten, 0⟩

/-! ### Per-pixel characterization of the scan loop -/

/-- The RGBA quadruple of pixel `k` of a flat buffer. -/
def pixelAt (d : List Nat) (k : Nat) : Nat × Nat × Nat × Nat :=
  (getByte d (4 * k), getByte d (4 * k + 1), getByte d (4 * k + 2),
   getByte d (4 * k + 3))

/-- The scan loop stopped after its first `n` pixels. -/
def foldScan (rgb : Nat × Nat × Nat) (d : List Nat) (n : Nat) : List Nat :=
  (List.range n).foldl (fun d k => recolorAt rgb d (4 * k)) d

theorem getByte_set_ne {i j : Nat} (d : List Nat) (v : Nat) (h : i ≠ j) :
    getByte (setByte d i v) j = getByte d j := by
  unfold getByte setByte
  rw [List.getD_eq_getElem?_getD, List.getD_eq_getElem?_getD,
    List.getElem?_set_ne h]

theorem getByte_set_self {i : Nat} (d : List Nat) (v : Nat) (h : i < d.length) :
    getByte (setByte d i v) i = v := by
  unfold getByte setByte
  rw [List.getD_eq_getElem?_getD, List.getElem?_set_eq_of_lt v h]
  rfl

theorem recolorAt_length (rgb : Nat × Nat × Nat) (d : List Nat) (idx : Nat) :
    (recolorAt rgb d idx).length = d.length := by
  unfold recolorAt setByte
  dsimp only
  split
  · simp
  · split <;> simp

theorem recolorAt_getByte_outside (rgb : Nat × Nat × Nat) (d : List Nat)
    (idx j : Nat) (h : j < idx ∨ idx + 4 ≤ j) :
    getByte (recolorAt rgb d idx) j = getByte d j := by
  unfold recolorAt
  dsimp only
  split
  · exact getByte_set_ne d 0 (by omega)
  · split
    · rw [getByte_set_ne _ _ (by omega), getByte_set_ne _ _ (by omega),
        getByte_set_ne _ _ (by omega)]
    · rfl

theorem foldScan_zero (rgb : Nat × Nat × Nat) (d : List Nat) :
    foldScan rgb d 0 = d := rfl

theorem foldScan_succ (rgb : Nat × Nat × Nat) (d : List Nat) (n : Nat) :
    foldScan rgb d (n + 1) = recolorAt rgb (foldScan rgb d n) (4 * n) := by
  unfold foldScan
  rw [List.range_succ, List.foldl_append]
  rfl

theorem foldScan_length (rgb : Nat × Nat × Nat) (d : List Nat) (n : Nat) :
    (foldScan rgb d n).length = d.length := by
  induction n with
  | zero => rfl
  | succ n ih => rw [foldScan_succ, recolorAt_length, ih]

theorem foldScan_getByte_ge (rgb : Nat × Nat × Nat) (d : List Nat) {n j : Nat}
    (h : 4 * n ≤ j) : getByte (foldScan rgb d n) j = getByte d j := by
  induction n with
  | zero => rfl
  | succ n ih =>
    rw [foldScan_succ, recolorAt_getByte_outside _ _ _ _ (Or.inr (by omega)),
      ih (by omega)]

theorem pixelAt_set_alpha (D : List Nat) (k : Nat) (hlen : 4 * k + 4 ≤ D.length) :
    pixelAt (setByte D (4 * k + 3) 0) k =
      (getByte D (4 * k), getByte D (4 * k + 1), getByte D (4 * k + 2), 0) := by
  unfold pixelAt
  rw [getByte_set_ne _ _ (by omega), getByte_set_ne _ _ (by omega),
    getByte_set_ne _ _ (by omega), getByte_set_self _ _ (by omega)]

theorem pixelAt_set_rgb (D : List Nat) (k : Nat) (r g b : Nat)
    (hlen : 4 * k + 4 ≤ D.length) :
    pixelAt (setByte (setByte (setByte D (4 * k) r) (4 * k + 1) g) (4 * k + 2) b) k =
      (r, g, b, getByte D (4 * k + 3)) := by
  have e0 : getByte (setByte (setByte (setByte D (4 * k) r) (4 * k + 1) g)
      (4 * k + 2) b) (4 * k) = r := by
    rw [getByte_set_ne _ _ (by omega), getByte_set_ne _ _ (by omega)]
    exact getByte_set_self _ _ (by omega)
  have e1 : getByte (setByte (setByte (setByte D (4 * k) r) (4 * k + 1) g)
      (4 * k + 2) b) (4 * k + 1) = g := by
    rw [getByte_set_ne _ _ (by omega)]
    exact getByte_set_self _ _ (by simp [setByte]; omega)
  have e2 : getByte (setByte (setByte (setByte D (4 * k) r) (4 * k + 1) g)
      (4 * k + 2) b) (4 * k + 2) = b :=
    getByte_set_self _ _ (by simp [setByte]; omega)
  have e3 : getByte (setByte (setByte (setByte D (4 * k) r) (4 * k + 1) g)
      (4 * k + 2) b) (4 * k + 3) = getByte D (4 * k + 3) := by
    rw [getByte_set_ne _ _ (by omega), getByte_set_ne _ _ (by omega),
      getByte_set_ne _ _ (by omega)]
  unfold pixelAt
  rw [e0, e1, e2, e3]

theorem foldScan_pixel (rgb : Nat × Nat × Nat) (d : List Nat) (n : Nat) :
    ∀ k, k < n → 4 * n ≤ d.length →
    pixelAt (foldScan rgb d n) k =
      (if getByte d (4 * k + 3) ≠ 0 ∧ getByte d (4 * k) = 255 ∧
          getByte d (4 * k + 1) = 255 ∧ getByte d (4 * k + 2) = 255 then
         (getByte d (4 * k), getByte d (4 * k + 1), getByte d (4 * k + 2), 0)
       else if getByte d (4 * k + 3) ≠ 0 ∧ getByte d (4 * k) = 0 ∧
          getByte d (4 * k + 1) = 0 ∧ getByte d (4 * k + 2) = 0 then
         (rgb.1, rgb.2.1, rgb.2.2, getByte d (4 * k + 3))
       else pixelAt d k) := by
  induction n with
  | zero => intro k hk; omega
  | succ n ih =>
    intro k hk hlen
    rw [foldScan_succ]
    rcases Nat.lt_succ_iff_lt_or_eq.mp hk with h | h
    · have houtside : pixelAt (recolorAt rgb (foldScan rgb d n) (4 * n)) k =
          pixelAt (foldScan rgb d n) k := by
        unfold pixelAt
        rw [recolorAt_getByte_outside _ _ _ _ (Or.inl (by omega)),
          recolorAt_getByte_outside _ _ _ _ (Or.inl (by omega)),
          recolorAt_getByte_outside _ _ _ _ (Or.inl (by omega)),
          recolorAt_getByte_outside _ _ _ _ (Or.inl (by omega))]
      rw [houtside, ih k h (by omega)]
    · subst h
      have hD : (foldScan rgb d k).length = d.length := foldScan_length rgb d k
      have h0 : getByte (foldScan rgb d k) (4 * k) = getByte d (4 * k) :=
        foldScan_getByte_ge rgb d (by omega)
      have h1 : getByte (foldScan rgb d k) (4 * k + 1) = getByte d (4 * k + 1) :=
        foldScan_getByte_ge rgb d (by omega)
      have h2 : getByte (foldScan rgb d k) (4 * k + 2) = getByte d (4 * k + 2) :=
        foldScan_getByte_ge rgb d (by omega)
      have h3 : getByte (foldScan rgb d k) (4 * k + 3) = getByte d (4 * k + 3) :=
        foldScan_getByte_ge rgb d (by omega)
      unfold recolorAt
      dsimp only
      rw [h0, h1, h2, h3]
      split
      · rw [pixelAt_set_alpha _ _ (by omega), h0, h1, h2]
      · split
        · rw [pixelAt_set_rgb _ _ _ _ _ (by omega), h3]
        · unfold pixelAt
          rw [h0, h1, h2, h3]

/-! ### Claim C1: the per-pixel rules of the recolor transform -/

/-- **C1.** For every well-formed input Bitmap (`data.length = 4·w·h`, the
Jimp invariant) and target RGB triple, the recolor transform of
`processAndSave` produces a Bitmap of the same dimensions in which each pixel
is rewritten by exactly one of three ordered rules: a pixel with non-zero
alpha and RGB exactly (255,255,255) gets alpha 0 with RGB unchanged (rule 2
is not applied to it); otherwise a pixel with non-zero alpha and RGB exactly
(0,0,0) gets the target RGB with alpha unchanged; every other pixel — any
pixel with alpha 0 and any non-black, non-white opaque pixel — is
bit-identical to the input. -/
theorem claim_C1_recolor_rules (rgb : Nat × Nat × Nat) (img : Bitmap)
    (hwf : img.data.length = 4 * (img.width * img.height)) :
    (processClone rgb img).width = img.width ∧
    (processClone rgb img).height = img.height ∧
    (processClone rgb img).data.length = img.data.length ∧
    ∀ k, k < img.width * img.height → ∀ r g b a : Nat,
      pixelAt img.data k = (r, g, b, a) →
      ((a ≠ 0 ∧ r = 255 ∧ g = 255 ∧ b = 255 →
          pixelAt (processClone rgb img).data k = (r, g, b, 0)) ∧
       (a ≠ 0 ∧ r = 0 ∧ g = 0 ∧ b = 0 →
          pixelAt (processClone rgb img).data k = (rgb.1, rgb.2.1, rgb.2.2, a)) ∧
       (a = 0 ∨ ((r, g, b) ≠ (255, 255, 255) ∧ (r, g, b) ≠ (0, 0, 0)) →
          pixelAt (processClone rgb img).data k = (r, g, b, a))) := by
  have hdata : (processClone rgb img).data =
      foldScan rgb img.data (img.width * img.height) := rfl
  refine ⟨rfl, rfl, ?_, ?_⟩
  · rw [hdata, foldScan_length]
  · intro k hk r g b a hpx
    have hpx' := hpx
    simp only [pixelAt, Prod.mk.injEq] at hpx'
    obtain ⟨hr, hg, hb, ha⟩ := hpx'
    have hfold := foldScan_pixel rgb img.data (img.width * img.height) k hk
      (by omega)
    rw [hdata, hfold, hr, hg, hb, ha]
    refine ⟨?_, ?_, ?_⟩
    · intro hcond
      rw [if_pos hcond]
    · intro hcond
      rw [if_neg (by rcases hcond with ⟨_, h0, _⟩; rintro ⟨_, h255, _⟩; omega),
        if_pos hcond]
    · intro hcond
      have hn1 : ¬(a ≠ 0 ∧ r = 255 ∧ g = 255 ∧ b = 255) := by
        rcases hcond with h | ⟨hw, _⟩
        · rintro ⟨ha0, _⟩; exact ha0 h
        · rintro ⟨_, h1, h2, h3⟩
          exact hw (by rw [h1, h2, h3])
      have hn2 : ¬(a ≠ 0 ∧ r = 0 ∧ g = 0 ∧ b = 0) := by
        rcases hcond with h | ⟨_, hb0⟩
        · rintro ⟨ha0, _⟩; exact ha0 h
        · rintro ⟨_, h1, h2, h3⟩
          exact hb0 (by rw [h1, h2, h3])
      rw [if_neg hn1, if_neg hn2, hpx]

/-- Witness for C1 at a concrete 2×1 bitmap holding one opaque black pixel
and one barely-opaque white pixel, with target color (10, 20, 30). -/
theorem claim_C1_recolor_rules_witness :
    pixelAt (processClone (10, 20, 30)
      ⟨2, 1, [0, 0, 0, 9, 255, 255, 255, 1]⟩).data 0 = (10, 20, 30, 9) :=
  ((claim_C1_recolor_rules (10, 20, 30) ⟨2, 1, [0, 0, 0, 9, 255, 255, 255, 1]⟩
      (by decide)).2.2.2 0 (by decide) 0 0 0 9 (by decide)).2.1 (by decide)

/-! ### Claim C9: the transform never mutates its input -/

/-- **C9.** The recolor transform operates on a clone: after a call of
`processAndSave` the caller's Bitmap is bit-identical to what was passed in,
so the same fetched Bitmap can be passed once per palette entry without
cross-contamination (a second call on the Bitmap as it exists after the
first call transforms the original pixels, for any second color), and two
applications to the same (Bitmap, color) pair yield bit-identical outputs. -/
theorem claim_C9_no_mutation (rgb rgb2 : Nat × Nat × Nat) (img : Bitmap) :
    (processAndSave rgb img).1 = img ∧
    (processAndSave rgb img).2 = processClone rgb img ∧
    (processAndSave rgb2 (processAndSave rgb img).1).2 = processClone rgb2 img ∧
    (processAndSave rgb ((processAndSave rgb img).1)).2 =
      (processAndSave rgb img).2 :=
  ⟨rfl, rfl, rfl, rfl⟩

/-! ### Claims C6 and C7: the palette resolver -/

/-- Joining segments with a separator character (used to state which entry
strings a given `name : hex : …` decomposition produces). -/
def joinCh (sep : Char) : List (List Char) → List Char
  | [] => []
  | [s] => s
  | s :: rest => s ++ sep :: joinCh sep rest

theorem splitCh_of_not_mem {sep : Char} : ∀ {s : List Char}, sep ∉ s →
    splitCh sep s = [s] := by
  intro s
  induction s with
  | nil => intro _; rfl
  | cons c rest ih =>
    intro h
    have hc : ¬(c = sep) := fun he => h (by rw [he]; exact List.mem_cons_self _ _)
    have hrest : sep ∉ rest := fun hm => h (List.mem_cons_of_mem _ hm)
    simp only [splitCh, ih hrest, hc, if_false]

theorem splitCh_append_sep {sep : Char} : ∀ {s : List Char}, sep ∉ s →
    ∀ (r : List Char), splitCh sep (s ++ sep :: r) = s :: splitCh sep r := by
  intro s
  induction s with
  | nil =>
    intro _ r
    simp [splitCh]
  | cons c rest ih =>
    intro h r
    have hc : ¬(c = sep) := fun he => h (by rw [he]; exact List.mem_cons_self _ _)
    have hrest : sep ∉ rest := fun hm => h (List.mem_cons_of_mem _ hm)
    simp only [List.cons_append, splitCh, List.append_eq, ih hrest, hc, if_false]

theorem splitCh_joinCh {sep : Char} : ∀ (segs : List (List Char)), segs ≠ [] →
    (∀ s ∈ segs, sep ∉ s) → splitCh sep (joinCh sep segs) = segs := by
  intro segs
  induction segs with
  | nil => intro h _; exact absurd rfl h
  | cons s rest ih =>
    intro _ hfree
    cases rest with
    | nil =>
      exact splitCh_of_not_mem (hfree s (List.mem_cons_self _ _))
    | cons s2 rest2 =>
      show splitCh sep (s ++ sep :: joinCh sep (s2 :: rest2)) = _
      rw [splitCh_append_sep (hfree s (List.mem_cons_self _ _)),
        ih (by simp) (fun x hx => hfree x (List.mem_cons_of_mem _ hx))]

/-- **C6 counterexample.** The claim says a specification whose part after
the first `:` is not exactly six hex digits (e.g. because it contains a
further `:`) is a fatal error; but `parseColors` accepts `"n:336699:x"`
(only segment 1 of the split is validated, later segments are silently
dropped) and returns the palette `n ↦ (51,102,153)` instead of aborting. -/
theorem claim_C6_counterexample :
    parseColors ["n:336699:x".toList] = .ok [("n".toList, (51, 102, 153))] := by
  rfl

/-- **C6 (amended).** `parseColors` splits each specification on `:` and
takes segment 0 as the name and segment 1 as the color part (segments after
the second are ignored, not an error); the specification is valid iff the
name is non-empty and segment 1 is exactly six hexadecimal digits with an
optional leading `#`; a valid specification yields the big-endian byte-pair
triple of its hex part, e.g. `"acc:336699"` maps to (51, 102, 153); an
invalid one is a fatal error carrying the offending entry. -/
theorem claim_C6_amended (nm hx : List Char) (tl : List (List Char))
    (hnm : ':' ∉ nm) (hhx : ':' ∉ hx) (htl : ∀ s ∈ tl, ':' ∉ s) :
    (nm ≠ [] ∧ validHex hx = true →
       parseColors [joinCh ':' (nm :: hx :: tl)] = .ok [(nm, rgbOfHex hx)]) ∧
    (nm = [] ∨ validHex hx = false →
       parseColors [joinCh ':' (nm :: hx :: tl)] =
         .error (joinCh ':' (nm :: hx :: tl))) ∧
    parseColors ["acc:336699".toList] = .ok [("acc".toList, (51, 102, 153))] := by
  have hsegs : splitCh ':' (joinCh ':' (nm :: hx :: tl)) = nm :: hx :: tl :=
    splitCh_joinCh _ (by simp)
      (by
        intro s hs
        rcases List.mem_cons.mp hs with h | hs2
        · rw [h]; exact hnm
        rcases List.mem_cons.mp hs2 with h | hs3
        · rw [h]; exact hhx
        · exact htl s hs3)
  refine ⟨?_, ?_, by rfl⟩
  · rintro ⟨hne, hvalid⟩
    have hempty : nm.isEmpty = false := by
      cases nm with
      | nil => exact absurd rfl hne
      | cons c r => rfl
    simp only [parseColors, parseLoop, hsegs, List.isEmpty_cons, if_false,
      Bool.false_eq_true, List.headD_cons, hempty, hvalid,
      List.getElem?_cons_succ, List.getElem?_cons_zero, Bool.not_true,
      Bool.false_or, Bool.or_false]
    rfl
  · intro hbad
    simp only [parseColors, parseLoop, hsegs, List.isEmpty_cons, if_false,
      Bool.false_eq_true, List.headD_cons, List.getElem?_cons_succ,
      List.getElem?_cons_zero]
    rcases hbad with h | h
    · subst h
      rfl
    · have hempty : (nm.isEmpty || !validHex hx) = true := by
        rw [h]; simp
      rw [if_pos hempty]

/-- Witness for C6 (amended): the valid branch at the three-segment entry
`n : 336699 : x`. -/
theorem claim_C6_amended_witness :
    parseColors [joinCh ':' ["n".toList, "336699".toList, "x".toList]] =
      .ok [("n".toList, rgbOfHex "336699".toList)] :=
  (claim_C6_amended "n".toList "336699".toList ["x".toList] (by decide)
    (by decide) (by decide)).1 ⟨by decide, by decide⟩

/-- The (name, triple) pair a single specification contributes when it is
valid, `none` when it is invalid — the per-entry semantics of the
`parseColors` loop body. -/
def entryOf (e : List Char) : Option (List Char × (Nat × Nat × Nat)) :=
  let segs := splitCh ':' e
  let name := segs.headD []
  match segs[1]? with
  | some hex =>
    if name.isEmpty || !validHex hex then none else some (name, rgbOfHex hex)
  | none => none

theorem mem_setKey {acc : List (List Char × (Nat × Nat × Nat))}
    {k : List Char} {v : Nat × Nat × Nat} {kv : List Char × (Nat × Nat × Nat)}
    (h : kv ∈ setKey acc k v) : kv ∈ acc ∨ kv = (k, v) := by
  unfold setKey at h
  by_cases hany : acc.any (fun p => p.1 = k) = true
  · rw [if_pos hany] at h
    rcases List.mem_map.mp h with ⟨p, hp, hpe⟩
    by_cases hpk : (p.1 = k) = True
    · right
      rw [← hpe]
      simp [hpk]
    · left
      have : ¬ p.1 = k := by
        intro he
        exact hpk (eq_true he)
      rw [← hpe]
      simpa [this] using hp
  · rw [if_neg hany] at h
    rcases List.mem_append.mp h with h | h
    · exact Or.inl h
    · right
      simpa using h

theorem parseLoop_mem : ∀ (l : List (List Char))
    (acc m : List (List Char × (Nat × Nat × Nat))), parseLoop l acc = .ok m →
    ∀ kv ∈ m, kv ∈ acc ∨ ∃ e ∈ l, entryOf e = some kv := by
  intro l
  induction l with
  | nil =>
    intro acc m h kv hkv
    simp only [parseLoop, Except.ok.injEq] at h
    subst h
    exact Or.inl hkv
  | cons entry rest ih =>
    intro acc m h kv hkv
    simp only [parseLoop] at h
    by_cases hbad : (((splitCh ':' entry).headD []).isEmpty
        || !(match (splitCh ':' entry)[1]? with
             | some hex => validHex hex
             | none => false)) = true
    · rw [if_pos hbad] at h
      exact absurd h (by simp)
    · rw [if_neg hbad] at h
      have hrec := ih _ m h kv hkv
      rcases hrec with hacc | ⟨e, he, hev⟩
      · rcases mem_setKey hacc with h2 | h2
        · exact Or.inl h2
        · right
          refine ⟨entry, List.mem_cons_self _ _, ?_⟩
          rw [h2]
          unfold entryOf
          cases hseg : (splitCh ':' entry)[1]? with
          | none =>
            rw [hseg] at hbad
            simp at hbad
          | some hex =>
            rw [hseg] at hbad
            simp only [hseg]
            rw [if_neg (by simpa using hbad)]
            have : (splitCh ':' entry).getD 1 [] = hex := by
              rw [List.getD_eq_getElem?_getD, hseg]
              rfl
            rw [this]
      · exact Or.inr ⟨e, List.mem_cons_of_mem _ he, hev⟩

/-- **C7.** With zero color specifications `parseColors` returns exactly the
fixed four-entry default palette green=(0,128,0), yellow=(255,255,0),
red=(255,0,0), blue=(0,0,255); with one or more specifications every entry
of the result originates from one of the given specifications — a full
override of the defaults, never a merge with them. -/
theorem claim_C7_default_palette :
    parseColors [] = .ok [("green".toList, (0, 128, 0)),
      ("yellow".toList, (255, 255, 0)), ("red".toList, (255, 0, 0)),
      ("blue".toList, (0, 0, 255))] ∧
    ∀ args, args ≠ [] → ∀ m, parseColors args = .ok m →
      ∀ kv ∈ m, ∃ e ∈ args, entryOf e = some kv := by
  refine ⟨by rfl, ?_⟩
  intro args hne m hok kv hkv
  have hloop : parseLoop args [] = .ok m := by
    unfold parseColors at hok
    rwa [if_neg (by simpa using hne)] at hok
  rcases parseLoop_mem args [] m hloop kv hkv with h | h
  · simp at h
  · exact h

/-- Witness for C7: the override branch at the single specification
`"a:010203"`. -/
theorem claim_C7_default_palette_witness :
    ∃ e ∈ ["a:010203".toList], entryOf e = some ("a".toList, (1, 2, 3)) :=
  claim_C7_default_palette.2 ["a:010203".toList] (by decide)
    [("a".toList, (1, 2, 3))] (by rfl) _ (by decide)

/-! ### Claim C5: the extractor deduplicates, keeping first occurrences -/

/-- The accumulator-free description of the `if (!urls.includes(u))
urls.push(u)` loop: keep each element's first occurrence, skipping anything
already seen. -/
def dedupAux (seen : List (List Char)) : List (List Char) → List (List Char)
  | [] => []
  | u :: rest =>
    if u ∈ seen then dedupAux seen rest
    else u :: dedupAux (seen ++ [u]) rest

theorem foldl_clean_eq : ∀ (l : List (List Char)) (acc : List (List Char)),
    l.foldl (fun urls m =>
      let cleanUrl := cleanMatch m
      if cleanUrl ∈ urls then urls else urls ++ [cleanUrl]) acc
    = acc ++ dedupAux acc (l.map cleanMatch) := by
  intro l
  induction l with
  | nil => intro acc; simp [dedupAux]
  | cons m rest ih =>
    intro acc
    simp only [List.foldl_cons, List.map_cons, dedupAux]
    by_cases h : cleanMatch m ∈ acc
    · simp only [h, if_true]
      exact ih acc
    · simp only [h, if_false]
      rw [ih (acc ++ [cleanMatch m]), List.append_assoc]
      rfl

theorem findPngUrls_eq_dedup (css : List Char) :
    findPngUrls css = dedupAux [] (cleanedMatches css) := by
  unfold findPngUrls cleanedMatches
  rw [foldl_clean_eq]
  rfl

theorem dedupAux_mem : ∀ (l seen : List (List Char)) (a : List Char),
    a ∈ dedupAux seen l ↔ a ∈ l ∧ a ∉ seen := by
  intro l
  induction l with
  | nil => intro seen a; simp [dedupAux]
  | cons u rest ih =>
    intro seen a
    unfold dedupAux
    by_cases hu : u ∈ seen
    · rw [if_pos hu, ih]
      constructor
      · rintro ⟨h1, h2⟩
        exact ⟨List.mem_cons_of_mem _ h1, h2⟩
      · rintro ⟨h1, h2⟩
        rcases List.mem_cons.mp h1 with he | hm
        · exact absurd (he ▸ hu) h2
        · exact ⟨hm, h2⟩
    · rw [if_neg hu]
      constructor
      · intro h
        rcases List.mem_cons.mp h with he | hm
        · exact ⟨he ▸ List.mem_cons_self _ _, he ▸ hu⟩
        · rcases (ih _ _).mp hm with ⟨h1, h2⟩
          refine ⟨List.mem_cons_of_mem _ h1, fun hs => h2 ?_⟩
          exact List.mem_append.mpr (Or.inl hs)
      · rintro ⟨h1, h2⟩
        rcases List.mem_cons.mp h1 with he | hm
        · exact he ▸ List.mem_cons_self _ _
        · by_cases hau : a = u
          · exact hau ▸ List.mem_cons_self _ _
          · refine List.mem_cons_of_mem _ ((ih _ _).mpr ⟨hm, fun hs => ?_⟩)
            rcases List.mem_append.mp hs with hs | hs
            · exact h2 hs
            · exact hau (by simpa using hs)

theorem dedupAux_nodup : ∀ (l seen : List (List Char)),
    (dedupAux seen l).Nodup := by
  intro l
  induction l with
  | nil => intro seen; simp [dedupAux]
  | cons u rest ih =>
    intro seen
    unfold dedupAux
    by_cases hu : u ∈ seen
    · rw [if_pos hu]; exact ih seen
    · rw [if_neg hu]
      refine List.nodup_cons.mpr ⟨fun hmem => ?_, ih _⟩
      rcases (dedupAux_mem rest (seen ++ [u]) u).mp hmem with ⟨_, h2⟩
      exact h2 (List.mem_append.mpr (Or.inr (List.mem_singleton.mpr rfl)))

/-- The index of the first occurrence of `a` in `l` (the length of `l` when
`a` does not occur). -/
def firstIdx : List (List Char) → List Char → Nat
  | [], _ => 0
  | x :: rest, a => if x = a then 0 else firstIdx rest a + 1

theorem firstIdx_cons_self (u : List Char) (l : List (List Char)) :
    firstIdx (u :: l) u = 0 := by
  simp [firstIdx]

theorem firstIdx_cons_ne (u a : List Char) (l : List (List Char))
    (h : u ≠ a) : firstIdx (u :: l) a = firstIdx l a + 1 := by
  simp [firstIdx, h]

theorem dedupAux_pairwise : ∀ (l seen : List (List Char)),
    (dedupAux seen l).Pairwise (fun a b => firstIdx l a < firstIdx l b) := by
  intro l
  induction l with
  | nil => intro seen; simp [dedupAux]
  | cons u rest ih =>
    intro seen
    unfold dedupAux
    by_cases hu : u ∈ seen
    · rw [if_pos hu]
      refine List.Pairwise.imp_of_mem ?_ (ih seen)
      intro a b ha hb hr
      have hane : u ≠ a := by
        rcases (dedupAux_mem rest seen a).mp ha with ⟨_, h2⟩
        exact fun he => h2 (he ▸ hu)
      have hbne : u ≠ b := by
        rcases (dedupAux_mem rest seen b).mp hb with ⟨_, h2⟩
        exact fun he => h2 (he ▸ hu)
      rw [firstIdx_cons_ne _ _ _ hane, firstIdx_cons_ne _ _ _ hbne]
      omega
    · rw [if_neg hu]
      refine List.Pairwise.cons ?_ ?_
      · intro b hb
        rcases (dedupAux_mem rest (seen ++ [u]) b).mp hb with ⟨_, h2⟩
        have hbne : u ≠ b := fun he =>
          h2 (he ▸ List.mem_append.mpr (Or.inr (List.mem_singleton.mpr rfl)))
        rw [firstIdx_cons_self, firstIdx_cons_ne _ _ _ hbne]
        omega
      · refine List.Pairwise.imp_of_mem ?_ (ih (seen ++ [u]))
        intro a b ha hb hr
        have hane : u ≠ a := by
          rcases (dedupAux_mem rest (seen ++ [u]) a).mp ha with ⟨_, h2⟩
          exact fun he =>
            h2 (he ▸ List.mem_append.mpr (Or.inr (List.mem_singleton.mpr rfl)))
        have hbne : u ≠ b := by
          rcases (dedupAux_mem rest (seen ++ [u]) b).mp hb with ⟨_, h2⟩
          exact fun he =>
            h2 (he ▸ List.mem_append.mpr (Or.inr (List.mem_singleton.mpr rfl)))
        rw [firstIdx_cons_ne _ _ _ hane, firstIdx_cons_ne _ _ _ hbne]
        omega

/-- **C5.** For every stylesheet text, `findPngUrls` returns a sequence with
no duplicates containing exactly the cleaned-up matches, each listed at the
position of its first occurrence (the output is ordered by first occurrence
in the pre-deduplication match sequence), and extraction is deterministic:
running it twice on the same text yields the same sequence. -/
theorem claim_C5_dedup_first_seen (css : List Char) :
    (findPngUrls css).Nodup ∧
    (∀ u, u ∈ findPngUrls css ↔ u ∈ cleanedMatches css) ∧
    (findPngUrls css).Pairwise
      (fun a b => firstIdx (cleanedMatches css) a <
        firstIdx (cleanedMatches css) b) ∧
    findPngUrls css = findPngUrls css := by
  rw [findPngUrls_eq_dedup]
  refine ⟨dedupAux_nodup _ _, ?_, dedupAux_pairwise _ _, rfl⟩
  intro u
  rw [dedupAux_mem]
  simp

/-! ### Claim C4: what the extractor returns -/

theorem findCapAux_caps {run rest0 : List Char} : ∀ (n : Nat)
    {cap after : List Char}, findCapAux run rest0 n = some (cap, after) →
    endsWithPng cap = true ∧ ∀ c ∈ cap, c ∈ run := by
  intro n
  induction n with
  | zero => intro cap after h; simp [findCapAux] at h
  | succ e ih =>
    intro cap after h
    unfold findCapAux at h
    by_cases hc : (decide (5 ≤ e + 1) && endsWithPng (run.take (e + 1))) = true
    · rw [if_pos hc] at h
      cases htm : tailMatch (run.drop (e + 1) ++ rest0) with
      | none => rw [htm] at h; exact ih h
      | some r =>
        rw [htm] at h
        simp only [Option.some.injEq, Prod.mk.injEq] at h
        obtain ⟨hcap, _⟩ := h
        subst hcap
        have hc' := hc
        simp only [Bool.and_eq_true] at hc'
        exact ⟨hc'.2, fun c hcmem => List.take_subset _ _ hcmem⟩
    · rw [if_neg hc] at h
      exact ih h

theorem mem_of_mem_takeWhile {p : Char → Bool} :
    ∀ {l : List Char} {c : Char}, c ∈ l.takeWhile p → c ∈ l := by
  intro l
  induction l with
  | nil => intro c h; simp at h
  | cons x rest ih =>
    intro c h
    rw [List.takeWhile_cons] at h
    by_cases hp : p x = true
    · rw [if_pos hp] at h
      rcases List.mem_cons.mp h with he | hm
      · exact he ▸ List.mem_cons_self _ _
      · exact List.mem_cons_of_mem _ (ih hm)
    · rw [if_neg hp] at h
      simp at h

theorem matchAt_caps {s cap after : List Char}
    (h : matchAt s = some (cap, after)) :
    endsWithPng cap = true ∧ ∀ c ∈ cap, isExcl c = false := by
  match s with
  | [] => simp [matchAt] at h
  | [c1] => simp [matchAt] at h
  | [c1, c2] => simp [matchAt] at h
  | [c1, c2, c3] => simp [matchAt] at h
  | c1 :: c2 :: c3 :: c4 :: rest =>
    unfold matchAt at h
    by_cases hc : (ciEq c1 'u' && ciEq c2 'r' && ciEq c3 'l' && c4 = '(') = true
    · simp only [hc, if_true] at h
      have := findCapAux_caps _ h
      refine ⟨this.1, fun c hcm => ?_⟩
      have hrun := this.2 c hcm
      have hp := List.mem_takeWhile_imp hrun
      simpa using hp
    · simp only [hc, Bool.false_eq_true, if_false] at h
      exact Option.noConfusion h

theorem scanAux_caps : ∀ (f : Nat) (s cap : List Char), cap ∈ scanAux f s →
    endsWithPng cap = true ∧ ∀ c ∈ cap, isExcl c = false := by
  intro f
  induction f with
  | zero =>
    intro s cap hcap
    cases s <;> simp [scanAux] at hcap
  | succ k ih =>
    intro s cap hcap
    cases s with
    | nil => simp [scanAux] at hcap
    | cons c rest =>
      cases hm : matchAt (c :: rest) with
      | some p =>
        obtain ⟨cap', after⟩ := p
        simp only [scanAux, hm, List.mem_cons] at hcap
        rcases hcap with he | hmem
        · exact he ▸ matchAt_caps hm
        · exact ih after cap hmem
      | none =>
        simp only [scanAux, hm] at hcap
        exact ih rest cap hcap

theorem takeWhile_all {p : Char → Bool} : ∀ {l : List Char},
    (∀ c ∈ l, p c = true) → l.takeWhile p = l := by
  intro l
  induction l with
  | nil => intro _; rfl
  | cons x rest ih =>
    intro h
    rw [List.takeWhile_cons, if_pos (h x (List.mem_cons_self _ _)),
      ih (fun c hc => h c (List.mem_cons_of_mem _ hc))]

theorem splitBefore_of_not_mem {sep : Char} {m : List Char} (h : sep ∉ m) :
    splitBefore sep m = m := by
  unfold splitBefore
  refine takeWhile_all (fun c hc => ?_)
  simp only [decide_eq_true_eq]
  exact fun he => h (he ▸ hc)

theorem stripHeadQuote_id {l : List Char} (h : ∀ c ∈ l, isQuote c = false) :
    stripHeadQuote l = l := by
  cases l with
  | nil => rfl
  | cons c r =>
    show (if isQuote c = true then r else c :: r) = c :: r
    rw [if_neg (by simp [h c (List.mem_cons_self _ _)])]

theorem stripQuotes_id {l : List Char} (h : ∀ c ∈ l, isQuote c = false) :
    stripQuotes l = l := by
  unfold stripQuotes
  rw [stripHeadQuote_id h]
  cases hr : l.reverse with
  | nil => rfl
  | cons c r =>
    have hcl : c ∈ l := by
      rw [← List.mem_reverse, hr]
      exact List.mem_cons_self _ _
    show (if isQuote c = true then r.reverse else l) = l
    rw [if_neg (by simp [h c hcl])]

theorem hasClose_cons₂ (c d : Char) (r : List Char) :
    hasClose (c :: d :: r) = ((c = '*' && d = '/') || hasClose (d :: r)) := rfl

theorem hasClose_append_close : ∀ (b : List Char),
    hasClose (b ++ ['*', '/']) = true := by
  intro b
  induction b with
  | nil => rfl
  | cons c b' ih =>
    cases b' with
    | nil => simp [hasClose]
    | cons d b'' =>
      show hasClose (c :: d :: (b'' ++ ['*', '/'])) = true
      rw [hasClose_cons₂]
      have : hasClose (d :: (b'' ++ ['*', '/'])) = true := ih
      rw [this, Bool.or_true]

theorem hasClose_cons_false {c : Char} {b : List Char}
    (h : hasClose (c :: b) = false) : hasClose b = false := by
  cases b with
  | nil => rfl
  | cons d b' =>
    rw [hasClose_cons₂] at h
    exact (Bool.or_eq_false_iff.mp h).2

theorem dropComment_append_close : ∀ (b : List Char),
    hasClose b = false → dropComment (b ++ ['*', '/']) = [] := by
  intro b
  induction b with
  | nil => intro _; rfl
  | cons c b' ih =>
    intro h
    cases b' with
    | nil => simp [dropComment]
    | cons d b'' =>
      show dropComment (c :: d :: (b'' ++ ['*', '/'])) = []
      have hfirst : (c = '*' && d = '/') = false := by
        rw [hasClose_cons₂] at h
        exact (Bool.or_eq_false_iff.mp h).1
      simp only [dropComment, hfirst, Bool.false_eq_true, if_false]
      exact ih (hasClose_cons_false h)

theorem rcAux_nil : ∀ (f : Nat), rcAux f [] = [] := by
  intro f
  cases f <;> rfl

theorem findPngUrls_comment (b : List Char) (h : hasClose b = false) :
    findPngUrls ('/' :: '*' :: (b ++ ['*', '/'])) = [] := by
  have hrc : removeComments ('/' :: '*' :: (b ++ ['*', '/'])) = [] := by
    unfold removeComments
    have hlen : ('/' :: '*' :: (b ++ ['*', '/'])).length = b.length + 3 + 1 := by
      simp
    rw [hlen]
    show rcAux (b.length + 3 + 1) ('/' :: '*' :: (b ++ ['*', '/'])) = []
    simp [rcAux, hasClose_append_close b, dropComment_append_close b h,
      rcAux_nil]
  unfold findPngUrls cleanCss
  rw [hrc]
  rfl

/-- **C4 counterexample.** The claim says every returned string ends in
`.png` (case-insensitively); but on the stylesheet `url(a?b.png)` the regex
captures `a?b.png` (the class `[^'")]` admits `?`), query-string stripping
then truncates it at the `?`, and `findPngUrls` returns `"a"`, which does
not end in `.png`. -/
theorem claim_C4_counterexample :
    findPngUrls "url(a?b.png)".toList = ["a".toList] ∧
    "a".toList ∈ findPngUrls "url(a?b.png)".toList ∧
    endsWithPng "a".toList = false := by
  refine ⟨by rfl, by decide, by decide⟩

/-- **C4 (amended).** Every string returned by the extractor is obtained
from a regex capture that does end in `.png` (case-insensitively) by
removing everything from the first `?` or `#` on — so a returned string
equals its capture, and hence ends in `.png`, whenever the capture contains
no `?` and no `#` (surrounding quotes cannot occur inside a capture, so
quote-stripping never changes it); and matching happens on the
comment-stripped text, so a stylesheet consisting of one terminated
`/* … */` comment yields no references at all, whatever its body. -/
theorem claim_C4_amended :
    (∀ css u, u ∈ findPngUrls css →
       ∃ m, m ∈ scanUrls (cleanCss css) ∧ endsWithPng m = true ∧
         u = splitBefore '#' (splitBefore '?' m) ∧
         ('?' ∉ m → '#' ∉ m → u = m)) ∧
    (∀ b, hasClose b = false →
       findPngUrls ('/' :: '*' :: (b ++ ['*', '/'])) = []) := by
  constructor
  · intro css u hu
    have hu' : u ∈ dedupAux [] (cleanedMatches css) := by
      rw [← findPngUrls_eq_dedup]; exact hu
    have hmem : u ∈ cleanedMatches css := ((dedupAux_mem _ _ _).mp hu').1
    rcases List.mem_map.mp hmem with ⟨m, hm, hcm⟩
    have hm' : m ∈ scanAux (cleanCss css).length (cleanCss css) := hm
    have hspec := scanAux_caps _ _ m hm'
    have hnoquote : ∀ c ∈ splitBefore '#' (splitBefore '?' m),
        isQuote c = false := by
      intro c hc
      have hcm2 : c ∈ m :=
        mem_of_mem_takeWhile (mem_of_mem_takeWhile hc)
      have := hspec.2 c hcm2
      unfold isExcl at this
      unfold isQuote
      rcases Bool.or_eq_false_iff.mp this with ⟨h12, _⟩
      exact h12
    refine ⟨m, hm, hspec.1, ?_, ?_⟩
    · rw [← hcm]
      unfold cleanMatch
      rw [stripQuotes_id hnoquote]
    · intro h1 h2
      rw [← hcm]
      unfold cleanMatch
      rw [splitBefore_of_not_mem h1, splitBefore_of_not_mem h2,
        stripQuotes_id (by
          intro c hc
          have := hspec.2 c hc
          unfold isExcl at this
          unfold isQuote
          rcases Bool.or_eq_false_iff.mp this with ⟨h12, _⟩
          exact h12)]
  · exact findPngUrls_comment

/-- Witness for C4 (amended): the capture behind the returned reference
`a.png` of the stylesheet `url(a.png)`. -/
theorem claim_C4_amended_witness :
    ∃ m, m ∈ scanUrls (cleanCss "url(a.png)".toList) ∧ endsWithPng m = true ∧
      "a.png".toList = splitBefore '#' (splitBefore '?' m) ∧
      ('?' ∉ m → '#' ∉ m → "a.png".toList = m) :=
  claim_C4_amended.1 "url(a.png)".toList "a.png".toList (by decide)

/-! ### Claims about the orchestrator: C10, C3, C2, C8 -/

/-- **C10.** If the retrieved stylesheet content is empty or consists only
of whitespace, the run aborts as a fatal error with exit code 1 — having
attempted only the stylesheet retrieval, with zero fetches and zero
outputs — instead of terminating successfully with zero References. -/
theorem claim_C10_blank_css_fatal (cfg : Config) (o : Oracle)
    (content : List Char) (hcss : o.cssResult = some content)
    (hblank : content.all isWs = true) :
    runMain cfg o = ⟨[Ev.fetchCss cfg.cssSource], 1⟩ := by
  simp only [runMain, hcss, hblank, if_true]

/-- Witness for C10 at a whitespace-only stylesheet. -/
theorem claim_C10_blank_css_fatal_witness :
    runMain
      ⟨"s.css".toList, none, "o".toList, [], fun _ => false, fun r _ => r⟩
      ⟨some " \n\t ".toList, fun _ => none, fun _ => true⟩ =
      ⟨[Ev.fetchCss "s.css".toList], 1⟩ :=
  claim_C10_blank_css_fatal _ _ " \n\t ".toList rfl (by decide)

/-- **C3 counterexample.** The claim says a malformed color specification
aborts before any network access, including the retrieval of the stylesheet
itself; but in the run below the stylesheet is retrieved from an `http://`
URL (a network access, recorded in the trace) and only afterwards does color
validation abort the run with exit code 1. -/
theorem claim_C3_counterexample :
    runMain
      ⟨"http://h/c.css".toList, none, "o".toList, ["bar:12345".toList],
        fun _ => false, fun r _ => r⟩
      ⟨some "url(a.png)".toList, fun _ => none, fun _ => true⟩ =
      ⟨[Ev.fetchCss "http://h/c.css".toList], 1⟩ ∧
    hasHttpScheme "http://h/c.css".toList = true := by
  refine ⟨by rfl, by decide⟩

/-- **C3 (amended).** When the stylesheet has been retrieved (non-blank) and
at least one reference survives extraction and filtering, a malformed color
specification makes the run exit with code 1 before any image fetch and
before any write — the trace holds nothing but the stylesheet retrieval,
which itself precedes color validation. (With zero surviving references the
run returns successfully without ever validating the palette.) -/
theorem claim_C3_amended (cfg : Config) (o : Oracle) (content err : List Char)
    (hcss : o.cssResult = some content) (hne : content.all isWs = false)
    (hpaths : (survivingPaths cfg content).isEmpty = false)
    (hcolors : parseColors cfg.colorArgs = .error err) :
    runMain cfg o = ⟨[Ev.fetchCss cfg.cssSource], 1⟩ := by
  simp only [runMain, hcss, hne, Bool.false_eq_true, if_false, hpaths,
    hcolors]

/-- Witness for C3 (amended) at the same malformed specification. -/
theorem claim_C3_amended_witness :
    runMain
      ⟨"http://h/c.css".toList, none, "o".toList, ["bar:12345".toList],
        fun _ => false, fun r _ => r⟩
      ⟨some "url(a.png)".toList, fun _ => none, fun _ => true⟩ =
      ⟨[Ev.fetchCss "http://h/c.css".toList], 1⟩ :=
  claim_C3_amended _ _ "url(a.png)".toList "bar:12345".toList rfl (by decide)
    (by decide) (by rfl)

theorem mem_refEvents_fetch {cfg : Config} {o : Oracle}
    {colors : List (List Char × (Nat × Nat × Nat))} {rel url : List Char}
    (h : refUrl cfg rel = some url) :
    Ev.fetchImg url ∈ refEvents cfg o colors rel := by
  simp only [refEvents, h]
  exact List.mem_cons_self _ _

theorem mem_refEvents_write {cfg : Config} {o : Oracle}
    {colors : List (List Char × (Nat × Nat × Nat))} {rel url : List Char}
    {img : Bitmap} {nc : List Char × (Nat × Nat × Nat)}
    (h : refUrl cfg rel = some url) (himg : o.imgResult url = some img)
    (hnc : nc ∈ colors) :
    Ev.write (joinPath cfg.output nc.1 (dropLeadingSlashes rel))
      (processAndSave nc.2 img).2
      (o.writeOk (joinPath cfg.output nc.1 (dropLeadingSlashes rel)))
      ∈ refEvents cfg o colors rel := by
  simp only [refEvents, h, himg, variantEvents]
  exact List.mem_cons_of_mem _ (List.mem_map.mpr ⟨nc, hnc, rfl⟩)

theorem refEvents_subset {cfg : Config} {o : Oracle}
    {colors : List (List Char × (Nat × Nat × Nat))}
    {paths : List (List Char)} {rel : List Char} {ev : Ev}
    (hrel : rel ∈ paths) (hev : ev ∈ refEvents cfg o colors rel) :
    ev ∈ Ev.fetchCss cfg.cssSource ::
      (paths.map (refEvents cfg o colors)).flatten :=
  List.mem_cons_of_mem _
    (List.mem_flatten.mpr ⟨_, List.mem_map.mpr ⟨rel, hrel, rfl⟩, hev⟩)

/-- **C2.** For every run whose stylesheet is retrieved (non-blank) and
whose palette is well-formed, the run exits with code 0 whatever the
per-item outcomes; every surviving reference that resolves to a URL is
fetched regardless of other references' failures; and for every such
reference whose fetch decodes, every palette entry's variant write is
attempted — a failure writing one variant (`writeOk` may be false anywhere)
or fetching one reference never prevents the remaining palette entries or
the remaining references from being attempted. -/
theorem claim_C2_partial_failure (cfg : Config) (o : Oracle)
    (content : List Char) (colors : List (List Char × (Nat × Nat × Nat)))
    (hcss : o.cssResult = some content) (hne : content.all isWs = false)
    (hcolors : parseColors cfg.colorArgs = .ok colors) :
    (runMain cfg o).exitCode = 0 ∧
    (∀ rel ∈ survivingPaths cfg content, ∀ url, refUrl cfg rel = some url →
       Ev.fetchImg url ∈ (runMain cfg o).events) ∧
    (∀ rel ∈ survivingPaths cfg content, ∀ url, refUrl cfg rel = some url →
       ∀ img, o.imgResult url = some img → ∀ nc ∈ colors,
       Ev.write (joinPath cfg.output nc.1 (dropLeadingSlashes rel))
         (processAndSave nc.2 img).2
         (o.writeOk (joinPath cfg.output nc.1 (dropLeadingSlashes rel)))
         ∈ (runMain cfg o).events) := by
  by_cases hpe : (survivingPaths cfg content).isEmpty = true
  · have hnil : survivingPaths cfg content = [] := List.isEmpty_iff.mp hpe
    simp only [runMain, hcss, hne, Bool.false_eq_true, if_false, hpe, if_true]
    refine ⟨by trivial, ?_, ?_⟩
    · intro rel hrel
      rw [hnil] at hrel
      exact absurd hrel (List.not_mem_nil _)
    · intro rel hrel
      rw [hnil] at hrel
      exact absurd hrel (List.not_mem_nil _)
  · have hpe' : (survivingPaths cfg content).isEmpty = false :=
      Bool.not_eq_true _ ▸ Bool.eq_false_iff.mpr hpe
    simp only [runMain, hcss, hne, Bool.false_eq_true, if_false, hpe',
      hcolors]
    refine ⟨by trivial, ?_, ?_⟩
    · intro rel hrel url hurl
      exact refEvents_subset hrel (mem_refEvents_fetch hurl)
    · intro rel hrel url hurl img himg nc hnc
      exact refEvents_subset hrel (mem_refEvents_write hurl himg hnc)

/-- Witness for C2: a two-reference run in which the second reference's
fetch fails and one write fails (`writeOk` is false on the red variant's
path), yet the first reference's green variant is still attempted and the
run exits 0. -/
theorem claim_C2_partial_failure_witness :
    ((runMain
      ⟨"http://h/c.css".toList, none, "o".toList,
        ["green:008000".toList, "red:ff0000".toList], fun _ => false,
        fun r _ => r⟩
      ⟨some "url(http://h/a.png) url(http://h/b.png)".toList,
        fun u => if u = "http://h/a.png".toList then
                   some ⟨1, 1, [0, 0, 0, 255]⟩ else none,
        fun p => ¬ p = "o/red/http://h/a.png".toList⟩).exitCode = 0) ∧
    Ev.write "o/green/http://h/a.png".toList ⟨1, 1, [0, 128, 0, 255]⟩ true
      ∈ (runMain
      ⟨"http://h/c.css".toList, none, "o".toList,
        ["green:008000".toList, "red:ff0000".toList], fun _ => false,
        fun r _ => r⟩
      ⟨some "url(http://h/a.png) url(http://h/b.png)".toList,
        fun u => if u = "http://h/a.png".toList then
                   some ⟨1, 1, [0, 0, 0, 255]⟩ else none,
        fun p => ¬ p = "o/red/http://h/a.png".toList⟩).events := by
  have h := claim_C2_partial_failure
    ⟨"http://h/c.css".toList, none, "o".toList,
      ["green:008000".toList, "red:ff0000".toList], fun _ => false,
      fun r _ => r⟩
    ⟨some "url(http://h/a.png) url(http://h/b.png)".toList,
      fun u => if u = "http://h/a.png".toList then
                 some ⟨1, 1, [0, 0, 0, 255]⟩ else none,
      fun p => ¬ p = "o/red/http://h/a.png".toList⟩
    "url(http://h/a.png) url(http://h/b.png)".toList
    [("green".toList, (0, 128, 0)), ("red".toList, (255, 0, 0))]
    rfl (by decide) (by rfl)
  refine ⟨h.1, ?_⟩
  have := h.2.2 "http://h/a.png".toList (by decide) "http://h/a.png".toList
    (by rfl) ⟨1, 1, [0, 0, 0, 255]⟩ (by simp) ("green".toList, (0, 128, 0))
    (by decide)
  simpa using this

/-- The sequence of image-fetch URLs recorded in a trace. -/
def fetchedUrls (evs : List Ev) : List (List Char) :=
  evs.filterMap (fun ev =>
    match ev with
    | Ev.fetchImg url => some url
    | _ => none)

theorem fetchedUrls_variantEvents (cfg : Config) (o : Oracle) (rel : List Char)
    (img : Bitmap) (colors : List (List Char × (Nat × Nat × Nat))) :
    fetchedUrls (variantEvents cfg o rel img colors) = [] := by
  unfold fetchedUrls variantEvents
  rw [List.filterMap_map]
  induction colors with
  | nil => rfl
  | cons nc rest _ih => simp

theorem fetchedUrls_refEvents (cfg : Config) (o : Oracle)
    (colors : List (List Char × (Nat × Nat × Nat))) (rel : List Char) :
    fetchedUrls (refEvents cfg o colors rel) =
      match refUrl cfg rel with
      | some url => [url]
      | none => [] := by
  cases hurl : refUrl cfg rel with
  | none => simp [refEvents, fetchedUrls, hurl]
  | some url =>
    simp only [refEvents, hurl]
    cases himg : o.imgResult url with
    | none => simp [fetchedUrls]
    | some img =>
      show fetchedUrls (Ev.fetchImg url :: variantEvents cfg o rel img colors)
        = [url]
      unfold fetchedUrls
      rw [List.filterMap_cons]
      simp only
      have := fetchedUrls_variantEvents cfg o rel img colors
      unfold fetchedUrls at this
      rw [this]

theorem fetchedUrls_flatten (cfg : Config) (o : Oracle)
    (colors : List (List Char × (Nat × Nat × Nat))) :
    ∀ (paths : List (List Char)),
    fetchedUrls ((paths.map (refEvents cfg o colors)).flatten) =
      paths.filterMap (refUrl cfg) := by
  intro paths
  induction paths with
  | nil => rfl
  | cons rel rest ih =>
    rw [List.map_cons, List.flatten_cons]
    unfold fetchedUrls
    rw [List.filterMap_append]
    have h1 := fetchedUrls_refEvents cfg o colors rel
    unfold fetchedUrls at h1
    unfold fetchedUrls at ih
    rw [h1, ih, List.filterMap_cons]
    cases refUrl cfg rel <;> simp

theorem mem_variantEvents {cfg : Config} {o : Oracle} {rel : List Char}
    {img : Bitmap} {colors : List (List Char × (Nat × Nat × Nat))} {ev : Ev}
    (h : ev ∈ variantEvents cfg o rel img colors) :
    ∃ nc ∈ colors,
      ev = Ev.write (joinPath cfg.output nc.1 (dropLeadingSlashes rel))
        (processAndSave nc.2 img).2
        (o.writeOk (joinPath cfg.output nc.1 (dropLeadingSlashes rel))) := by
  unfold variantEvents at h
  rcases List.mem_map.mp h with ⟨nc, hnc, he⟩
  exact ⟨nc, hnc, he.symm⟩

/-- The concrete end-to-end stylesheet of the claim. -/
def e2eCss : List Char :=
  ".a\x7bbackground:url('icon.png')\x7d .b\x7bbackground:url(\"icon.png?v=2\")\x7d".toList

/-- The concrete end-to-end configuration: base URL `https://x.test/`,
output root `out`, default palette, no filters, resolution by
concatenation (what `new URL(rel, base)` does for these inputs). -/
def e2eCfg : Config :=
  ⟨"https://x.test/s.css".toList, some "https://x.test/".toList,
   "out".toList, [], fun _ => false, fun rel base => base ++ rel⟩

/-- The concrete end-to-end oracle: one opaque black pixel for every image,
all writes succeed. -/
def e2eOracle : Oracle :=
  ⟨some e2eCss, fun _ => some ⟨1, 1, [0, 0, 0, 255]⟩, fun _ => true⟩

/-- **C8.** In every run (stylesheet retrieved, palette well-formed), the
fetch events are exactly one per surviving reference that resolves to a URL
— and the surviving references contain no duplicates, so each reference is
fetched at most once; every write event carries a bitmap computed by the
transform from the single decoded Bitmap of its reference's fetch. In the
concrete scenario — a stylesheet containing `url('icon.png')` and
`url("icon.png?v=2")` with base URL `https://x.test/` — the trace holds
exactly one image fetch (of `icon.png`, resolved against the base) and one
write per default-palette entry at `out/<name>/icon.png`, and the run exits
with code 0. -/
theorem claim_C8_fetch_once (cfg : Config) (o : Oracle) (content : List Char)
    (colors : List (List Char × (Nat × Nat × Nat)))
    (hcss : o.cssResult = some content) (hne : content.all isWs = false)
    (hcolors : parseColors cfg.colorArgs = .ok colors)
    (hpne : (survivingPaths cfg content).isEmpty = false) :
    fetchedUrls (runMain cfg o).events =
      (survivingPaths cfg content).filterMap (refUrl cfg) ∧
    (survivingPaths cfg content).Nodup ∧
    (∀ p bmp ok, Ev.write p bmp ok ∈ (runMain cfg o).events →
       ∃ rel ∈ survivingPaths cfg content, ∃ url img,
         refUrl cfg rel = some url ∧ o.imgResult url = some img ∧
         ∃ nc ∈ colors,
           bmp = (processAndSave nc.2 img).2 ∧
           p = joinPath cfg.output nc.1 (dropLeadingSlashes rel) ∧
           ok = o.writeOk p) ∧
    runMain e2eCfg e2eOracle =
      ⟨[Ev.fetchCss "https://x.test/s.css".toList,
        Ev.fetchImg "https://x.test/icon.png".toList,
        Ev.write "out/green/icon.png".toList ⟨1, 1, [0, 128, 0, 255]⟩ true,
        Ev.write "out/yellow/icon.png".toList ⟨1, 1, [255, 255, 0, 255]⟩ true,
        Ev.write "out/red/icon.png".toList ⟨1, 1, [255, 0, 0, 255]⟩ true,
        Ev.write "out/blue/icon.png".toList ⟨1, 1, [0, 0, 255, 255]⟩ true],
       0⟩ := by
  have hev : (runMain cfg o).events = Ev.fetchCss cfg.cssSource ::
      ((survivingPaths cfg content).map (refEvents cfg o colors)).flatten := by
    simp only [runMain, hcss, hne, Bool.false_eq_true, if_false, hpne,
      hcolors]
  refine ⟨?_, ?_, ?_, by rfl⟩
  · rw [hev]
    unfold fetchedUrls
    rw [List.filterMap_cons]
    simp only
    have := fetchedUrls_flatten cfg o colors (survivingPaths cfg content)
    unfold fetchedUrls at this
    rw [this]
  · unfold survivingPaths
    refine List.Nodup.filter _ ?_
    rw [findPngUrls_eq_dedup]
    exact dedupAux_nodup _ _
  · intro p bmp ok hmem
    rw [hev] at hmem
    rcases List.mem_cons.mp hmem with he | hmem2
    · exact absurd he (by simp)
    · rcases List.mem_flatten.mp hmem2 with ⟨evs, hevs, hin⟩
      rcases List.mem_map.mp hevs with ⟨rel, hrel, hre⟩
      rw [← hre] at hin
      unfold refEvents at hin
      cases hurl : refUrl cfg rel with
      | none => rw [hurl] at hin; simp at hin
      | some url =>
        rw [hurl] at hin
        rcases List.mem_cons.mp hin with he | hin2
        · exact absurd he (by simp)
        · cases himg : o.imgResult url with
          | none => rw [himg] at hin2; simp at hin2
          | some img =>
            rw [himg] at hin2
            rcases mem_variantEvents hin2 with ⟨nc, hnc, he⟩
            simp only [Ev.write.injEq] at he
            obtain ⟨hp, hbmp, hok⟩ := he
            exact ⟨rel, hrel, url, img, hurl, himg, nc, hnc, hbmp, hp,
              hp ▸ hok⟩

/-- Witness for C8: the general fetch-once equation instantiated at the
end-to-end scenario. -/
theorem claim_C8_fetch_once_witness :
    fetchedUrls (runMain e2eCfg e2eOracle).events =
      (survivingPaths e2eCfg e2eCss).filterMap (refUrl e2eCfg) :=
  (claim_C8_fetch_once e2eCfg e2eOracle e2eCss defaultPalette rfl (by decide)
    (by rfl) (by decide)).1

end GetImages
